import Mathlib

/-!
Verification of the bas.h5 reader core (`pbcore/io/BasH5Reader.py`).

The Python module is shallowly embedded: hierarchical-container datasets
become explicit Lean lists handed to the constructors, numpy arrays become
`List`, Python dicts become association lists read with last-binding-wins
lookup (`pyDictGet`), and every operation that can raise a Python exception
returns `Except PyErr` or `Option`.
-/

deriving instance DecidableEq for Except

/-- The Python exception kinds raised by the embedded code. -/
inductive PyErr where
  | keyError
  | indexError
  | typeError
  | valueError
  deriving DecidableEq, Repr

/-- Python `dict` built from an association list by repeated insertion:
the *latest* binding of a key wins, and a missing key yields `none`
(the call site decides whether that is a `KeyError`). -/
def pyDictGet {α β : Type} [BEq α] (d : List (α × β)) (k : α) : Option β :=
  List.lookup k d.reverse

/-- Python list / 1-D numpy scalar indexing: negative indices wrap once from
the end, and anything still out of bounds is an `IndexError` (`none`). -/
def pyIndex {α : Type} (l : List α) (i : Int) : Option α :=
  if 0 ≤ i then l.get? i.toNat
  else if 0 ≤ i + (l.length : Int) then l.get? (i + (l.length : Int)).toNat
  else none

/-- `np.cumsum` with an explicit running accumulator. -/
def cumsumFrom (acc : Nat) : List Nat → List Nat
  | [] => []
  | x :: xs => (acc + x) :: cumsumFrom (acc + x) xs

/-- `np.cumsum`. -/
def cumsum (l : List Nat) : List Nat := cumsumFrom 0 l

/-- The interior of `np.ediff1d`: differences of adjacent elements. -/
def adjacentDiffs : List Int → List Int
  | [] => []
  | [_] => []
  | x :: y :: rest => (y - x) :: adjacentDiffs (y :: rest)

/-- `np.flatnonzero` with an explicit starting position `k`. -/
def flatnonzeroFrom (k : Nat) : List Int → List Nat
  | [] => []
  | x :: xs =>
    if x = 0 then flatnonzeroFrom (k + 1) xs else k :: flatnonzeroFrom (k + 1) xs

/-- `np.unique`: the sorted list of distinct values. -/
def npUnique (l : List Int) : List Int :=
  (l.insertionSort (fun a b => a ≤ b)).dedup

-- ZMW hole types
def SEQUENCING_ZMW : Int := 0

-- Region types
def ADAPTER_REGION : Int := 0
def INSERT_REGION : Int := 1
def HQ_REGION : Int := 2

/-- One row of the `/PulseData/Regions` annotation table
(`REGION_TABLE_DTYPE`). -/
structure RegionRow where
  holeNumber : Int
  regionType : Int
  regionStart : Int
  regionEnd : Int
  regionScore : Int
  deriving DecidableEq, Repr

/-- `intersectRanges` from the source: clip two intervals against each
other, `None` when the intersection is empty. -/
def intersectRanges (r1 r2 : Int × Int) : Option (Int × Int) :=
  let b := max r1.1 r2.1
  let e := min r1.2 r2.2
  if b < e then some (b, e) else none

/-- `rangeLength` from the source. -/
def rangeLength (r : Int × Int) : Int := r.2 - r.1

/-- `removeNones` from the source: keep the non-`None` entries. -/
def removeNones {α : Type} (l : List (Option α)) : List α := l.filterMap id

/-- `_makeOffsetsDataStructure`: exclusive/inclusive prefix sums of
`ZMW/NumEvent` zipped against `ZMW/HoleNumber`, then turned into a dict. -/
def _makeOffsetsDataStructure (numEvent : List Nat) (holeNumber : List Int) :
    List (Int × Nat × Nat) :=
  let endOffset := cumsum numEvent
  let beginOffset := 0 :: endOffset.dropLast
  let offsets := beginOffset.zip endOffset
  holeNumber.zip offsets

/-- `np.ediff1d(hs, to_begin=[1], to_end=[1])`. -/
def mkDiffs (hs : List Int) : List Int := 1 :: (adjacentDiffs hs ++ [1])

/-- `_makeRegionTableIndex`: changepoints of the hole-number column paired
consecutively and zipped against `np.unique` of the column. -/
def _makeRegionTableIndex (regionTableHoleNumbers : List Int) :
    List (Int × Nat × Nat) :=
  let changepoints := flatnonzeroFrom 0 (mkDiffs regionTableHoleNumbers)
  let startsAndEnds := changepoints.zip changepoints.tail
  (npUnique regionTableHoleNumbers).zip startsAndEnds

/-- The state a `BaxH5Reader` holds after `__init__`: the region table, the
two indexes built by the builders above, the hole-number-to-row dict and the
usable-hole list. -/
structure BaxH5Part where
  regionTable : List RegionRow
  regionTableIndex : List (Int × Nat × Nat)
  offsetsByHole : List (Int × Nat × Nat)
  holeNumberToIndex : List (Int × Nat)
  sequencingZmws : List Int
  deriving DecidableEq, Repr

/-- A channel (ZMW) view: the owning part, the hole number, and the row
index resolved at construction. -/
structure Zmw where
  baxH5 : BaxH5Part
  holeNumber : Int
  index : Nat
  deriving DecidableEq, Repr

/-- `Zmw.__init__`: resolving the row index raises `KeyError` when the hole
number is absent from `_holeNumberToIndex`. -/
def Zmw.make (baxH5 : BaxH5Part) (holeNumber : Int) : Except PyErr Zmw :=
  match pyDictGet baxH5.holeNumberToIndex holeNumber with
  | none => .error .keyError
  | some i => .ok ⟨baxH5, holeNumber, i⟩

/-- `Zmw.regionTable` property: dict indexing into `_regionTableIndex`
(raises `KeyError`, hence `none`, for an absent hole) followed by a Python
slice of the annotation table. -/
def Zmw.regionRows (z : Zmw) : Option (List RegionRow) :=
  match pyDictGet z.baxH5.regionTableIndex z.holeNumber with
  | none => none
  | some se => some ((z.baxH5.regionTable.drop se.1).take (se.2 - se.1))

/-- The pure part of `Zmw.hqRegion`: among the rows of this hole, the unique
HQ row gives the interval; zero or several HQ rows degrade to `(0, 0)`.
The source tests `len(hqRows) == 1` and then takes `hqRows[0]`, which is
exactly the singleton-list pattern match. -/
def hqFromRows (rows : List RegionRow) : Int × Int :=
  match rows.filter (fun r => r.regionType == HQ_REGION) with
  | [hqRow] => (hqRow.regionStart, hqRow.regionEnd)
  | _ => (0, 0)

/-- `Zmw.hqRegion` property. -/
def Zmw.hqRegion (z : Zmw) : Option (Int × Int) :=
  (z.regionRows).map hqFromRows

/-- The pure part of `Zmw.adapterRegions`: unclipped intervals of the
adapter rows, each intersected with the HQ region, `None`s removed. -/
def adapterIntervalsOf (rows : List RegionRow) : List (Int × Int) :=
  let unclippedAdapterRegions :=
    (rows.filter (fun r => r.regionType == ADAPTER_REGION)).map
      (fun r => (r.regionStart, r.regionEnd))
  let hqRegion := hqFromRows rows
  removeNones (unclippedAdapterRegions.map (fun rg => intersectRanges hqRegion rg))

/-- The pure part of `Zmw.insertRegions`. -/
def insertIntervalsOf (rows : List RegionRow) : List (Int × Int) :=
  let unclippedInsertRegions :=
    (rows.filter (fun r => r.regionType == INSERT_REGION)).map
      (fun r => (r.regionStart, r.regionEnd))
  let hqRegion := hqFromRows rows
  removeNones (unclippedInsertRegions.map (fun rg => intersectRanges hqRegion rg))

/-- `Zmw.adapterRegions` property. -/
def Zmw.adapterRegions (z : Zmw) : Option (List (Int × Int)) :=
  (z.regionRows).map adapterIntervalsOf

/-- `Zmw.insertRegions` property. -/
def Zmw.insertRegions (z : Zmw) : Option (List (Int × Int)) :=
  (z.regionRows).map insertIntervalsOf

/-- A read view: the fields stored by `ZmwRead.__init__`. -/
structure ZmwRead where
  holeNumber : Int
  readStart : Int
  readEnd : Int
  offsetBegin : Int
  offsetEnd : Int
  deriving DecidableEq, Repr

/-- `ZmwRead.__init__`: look up the channel offset span (dict indexing, so
`KeyError` when absent), resolve the absolute offsets, and check
`zmwOffsetBegin <= offsetBegin <= offsetEnd <= zmwOffsetEnd`, raising
`IndexError` otherwise. -/
def ZmwRead.make (baxH5 : BaxH5Part) (holeNumber readStart readEnd : Int) :
    Except PyErr ZmwRead :=
  match pyDictGet baxH5.offsetsByHole holeNumber with
  | none => .error .keyError
  | some ze =>
    let offsetBegin : Int := (ze.1 : Int) + readStart
    let offsetEnd : Int := (ze.1 : Int) + readEnd
    if (ze.1 : Int) ≤ offsetBegin ∧ offsetBegin ≤ offsetEnd ∧ offsetEnd ≤ (ze.2 : Int)
    then .ok ⟨holeNumber, readStart, readEnd, offsetBegin, offsetEnd⟩
    else .error .indexError

/-- `ZmwRead.__len__`. -/
def ZmwRead.len (r : ZmwRead) : Int := r.readEnd - r.readStart

/-- The state a `BasH5Reader` holds after `__init__`: whether the file
declared a multi-part layout, the opened parts, and the
`/MultiPart/HoleLookup` routing column (empty for a single-part file). -/
structure BasH5 where
  multiPart : Bool
  parts : List BaxH5Part
  holeLookupVector : List Int
  deriving DecidableEq, Repr

/-- `_holeLookup`: vector indexing for a multi-part file, the constant `1`
for a single-part file (the vector is never consulted). -/
def BasH5.holeLookup (r : BasH5) (holeNumber : Int) : Option Int :=
  if r.multiPart then pyIndex r.holeLookupVector holeNumber else some 1

/-- `_sequencingZmws`: concatenation of the per-part usable-hole lists in
part order. -/
def BasH5.sequencingZmws (r : BasH5) : List Int :=
  (r.parts.map BaxH5Part.sequencingZmws).flatten

/-- `BasH5Reader._getitemScalar`: route through `_holeLookup`, index the
part list (Python semantics, so negative wraps), and delegate. -/
def BasH5.getitemScalar (r : BasH5) (holeNumber : Int) : Except PyErr Zmw :=
  match r.holeLookup holeNumber with
  | none => .error .indexError
  | some k =>
    match pyIndex r.parts (k - 1) with
    | none => .error .indexError
    | some part => Zmw.make part holeNumber

/-- `BaxH5Reader.__getitem__`: construct the channel view directly. -/
def BaxH5Part.getitem (part : BaxH5Part) (holeNumber : Int) : Except PyErr Zmw :=
  Zmw.make part holeNumber

/-- `slice.indices(length)` exactly as CPython computes it (step `0` is a
`ValueError`). -/
def sliceIndices (start stop step : Option Int) (length : Nat) :
    Except PyErr (Int × Int × Int) :=
  let st := step.getD 1
  if st = 0 then .error .valueError else
  let lower : Int := if st < 0 then -1 else 0
  let upper : Int := if st < 0 then (length : Int) - 1 else (length : Int)
  let start2 :=
    match start with
    | none => if st < 0 then upper else lower
    | some s => if s < 0 then max (s + (length : Int)) lower else min s upper
  let stop2 :=
    match stop with
    | none => if st < 0 then lower else upper
    | some s => if s < 0 then max (s + (length : Int)) lower else min s upper
  .ok (start2, stop2, st)

/-- Number of elements of `xrange(b, e, st)` for `st ≠ 0`. -/
def xrangeLen (b e st : Int) : Nat :=
  if 0 < st then ((e - b + st - 1) / st).toNat
  else ((b - e + (-st) - 1) / (-st)).toNat

/-- `xrange(b, e, st)`. -/
def xrange (b e st : Int) : List Int :=
  (List.range (xrangeLen b e st)).map (fun i => b + st * i)

/-- `np.flatnonzero` applied to a boolean mask: the positions holding
`True`. -/
def flatnonzeroBools (bs : List Bool) : List Nat :=
  flatnonzeroFrom 0 (bs.map (fun b => if b then 1 else 0))

/-- The kinds of argument `BasH5Reader.__getitem__` dispatches on: a scalar
(`int` / `np.integer`), a `slice`, a list or array of integers, a list or
array of booleans, or anything else. Lists and numpy arrays are homogeneous
here; the source inspects the type of the first element. -/
inductive BulkArg where
  | scalar (holeNumber : Int)
  | ofSlice (start stop step : Option Int)
  | ofInts (xs : List Int)
  | ofBools (xs : List Bool)
  | other
  deriving DecidableEq, Repr

/-- `__getitem__` returns a bare channel view for a scalar argument and a
list of views for a bulk argument. -/
inductive PyGetResult where
  | one (z : Zmw)
  | many (zs : List Zmw)
  deriving DecidableEq, Repr

/-- `BasH5Reader.__getitem__`: scalar lookup, slice lookup over
`xrange(*holeNumbers.indices(len(self)))`, integer-list lookup, boolean-mask
lookup over `np.flatnonzero(holeNumbers)` (note: the flat-nonzero positions
themselves are fed to `_getitemScalar` as hole numbers), empty lists short
circuit to `[]`, and every other argument raises `TypeError`. -/
def BasH5.getitem (r : BasH5) (arg : BulkArg) : Except PyErr PyGetResult :=
  match arg with
  | .scalar holeNumber => (r.getitemScalar holeNumber).map .one
  | .ofSlice start stop step =>
    match sliceIndices start stop step (BasH5.sequencingZmws r).length with
    | .error e => .error e
    | .ok bes =>
      ((xrange bes.1 bes.2.1 bes.2.2).mapM (fun x => r.getitemScalar x)).map .many
  | .ofInts xs =>
    if xs.isEmpty then .ok (.many [])
    else (xs.mapM (fun x => r.getitemScalar x)).map .many
  | .ofBools bs =>
    if bs.isEmpty then .ok (.many [])
    else ((flatnonzeroBools bs).mapM (fun i => r.getitemScalar (Int.ofNat i))).map .many
  | .other => .error .typeError

/-- A metric dataset under `ZMWMetrics`: one- or two-dimensional. -/
inductive NpArr (α : Type) where
  | oneD (xs : List α)
  | twoD (xss : List (List α))
  deriving DecidableEq, Repr

/-- What indexing a metric dataset at a row returns: a scalar for a 1-D
dataset, the remaining row for a 2-D dataset. -/
inductive MetricVal (α : Type) where
  | scalar (x : α)
  | row (xs : List α)
  deriving DecidableEq, Repr

/-- `v[index,]` / `v[index]` on a cached metric array: 2-D arrays index
along the first axis and return the remaining row, 1-D arrays return the
scalar; out of range raises `IndexError`. -/
def metricIndex {α : Type} (v : NpArr α) (index : Nat) : Except PyErr (MetricVal α) :=
  match v with
  | .twoD xss =>
    match xss.get? index with
    | some r => .ok (.row r)
    | none => .error .indexError
  | .oneD xs =>
    match xs.get? index with
    | some x => .ok (.scalar x)
    | none => .error .indexError

/-- `BaxH5Reader.zmwMetric(name, index)` with the `__metricCache` made
explicit. The result also reports the updated cache and how many backing
datasets were read by this call (0 or 1). A name absent from the backing
group raises `KeyError` before any array is read. -/
def zmwMetric {α : Type} (store cache : List (String × NpArr α))
    (name : String) (index : Nat) :
    Except PyErr (MetricVal α) × List (String × NpArr α) × Nat :=
  match pyDictGet cache name with
  | some v => (metricIndex v index, cache, 0)
  | none =>
    match pyDictGet store name with
    | none => (.error .keyError, cache, 0)
    | some v => (metricIndex v index, cache ++ [(name, v)], 1)

/-- Direct un-cached metric lookup: read the named dataset and index it by
the channel row index. -/
def zmwMetricDirect {α : Type} (store : List (String × NpArr α))
    (name : String) (index : Nat) : Except PyErr (MetricVal α) :=
  match pyDictGet store name with
  | none => .error .keyError
  | some v => metricIndex v index

/-!
## Helper lemmas
-/

theorem lookup_eq_some_of_nodup {α β : Type} [BEq α] [LawfulBEq α]
    (d : List (α × β)) (k : α) (v : β)
    (hnd : (d.map Prod.fst).Nodup) (hmem : (k, v) ∈ d) :
    List.lookup k d = some v := by
  induction d with
  | nil => simp at hmem
  | cons hd tl ih =>
    obtain ⟨a, b⟩ := hd
    simp only [List.map_cons, List.nodup_cons] at hnd
    by_cases hk : k = a
    · subst hk
      rcases List.mem_cons.mp hmem with h1 | h1
      · cases h1
        simp [List.lookup_cons]
      · exact absurd (List.mem_map_of_mem Prod.fst h1) hnd.1
    · have hb : (k == a) = false := beq_eq_false_iff_ne.mpr hk
      simp only [List.lookup_cons, hb]
      apply ih hnd.2
      rcases List.mem_cons.mp hmem with h1 | h1
      · cases h1; exact absurd rfl hk
      · exact h1

theorem pyDictGet_eq_some_of_nodup {α β : Type} [BEq α] [LawfulBEq α]
    (d : List (α × β)) (k : α) (v : β)
    (hnd : (d.map Prod.fst).Nodup) (hmem : (k, v) ∈ d) :
    pyDictGet d k = some v := by
  unfold pyDictGet
  apply lookup_eq_some_of_nodup
  · rw [List.map_reverse]
    exact List.nodup_reverse.mpr hnd
  · exact List.mem_reverse.mpr hmem

theorem intersectRanges_sound (hq rg p : Int × Int)
    (h : intersectRanges hq rg = some p) :
    hq.1 ≤ p.1 ∧ p.1 < p.2 ∧ p.2 ≤ hq.2 := by
  unfold intersectRanges at h
  by_cases hlt : max hq.1 rg.1 < min hq.2 rg.2
  · simp only [hlt, if_pos] at h
    cases h
    exact ⟨le_max_left _ _, hlt, min_le_left _ _⟩
  · simp [hlt] at h

theorem adapterIntervalsOf_eq (rows : List RegionRow) :
    adapterIntervalsOf rows =
      (rows.filter (fun r => r.regionType == ADAPTER_REGION)).filterMap
        (fun r => intersectRanges (hqFromRows rows) (r.regionStart, r.regionEnd)) := by
  simp only [adapterIntervalsOf, removeNones, List.filterMap_map]
  rfl

theorem insertIntervalsOf_eq (rows : List RegionRow) :
    insertIntervalsOf rows =
      (rows.filter (fun r => r.regionType == INSERT_REGION)).filterMap
        (fun r => intersectRanges (hqFromRows rows) (r.regionStart, r.regionEnd)) := by
  simp only [insertIntervalsOf, removeNones, List.filterMap_map]
  rfl

/-!
## C1: read-view bounds check
-/

/-- C1: for a hole present in the offset index, a `ZmwRead` constructs
successfully exactly when
`zmwOffsetBegin <= zmwOffsetBegin + readStart <= zmwOffsetBegin + readEnd <= zmwOffsetEnd`;
a violation raises the range error (`IndexError`) — in particular when
`readEnd < readStart` — and every successfully constructed read stores
exactly the resolved absolute offsets, satisfies the chain of inequalities,
and has non-negative `len() = readEnd - readStart`. -/
theorem zmwRead_bounds_check (baxH5 : BaxH5Part) (holeNumber readStart readEnd : Int)
    (zb ze : Nat) (h : pyDictGet baxH5.offsetsByHole holeNumber = some (zb, ze)) :
    ((∃ rd, ZmwRead.make baxH5 holeNumber readStart readEnd = .ok rd) ↔
      ((zb : Int) ≤ (zb : Int) + readStart ∧
        (zb : Int) + readStart ≤ (zb : Int) + readEnd ∧
        (zb : Int) + readEnd ≤ (ze : Int))) ∧
    (∀ rd, ZmwRead.make baxH5 holeNumber readStart readEnd = .ok rd →
      rd.offsetBegin = (zb : Int) + readStart ∧ rd.offsetEnd = (zb : Int) + readEnd ∧
      (zb : Int) ≤ rd.offsetBegin ∧ rd.offsetBegin ≤ rd.offsetEnd ∧
      rd.offsetEnd ≤ (ze : Int) ∧
      rd.len = readEnd - readStart ∧ 0 ≤ rd.len) ∧
    (readEnd < readStart →
      ZmwRead.make baxH5 holeNumber readStart readEnd = .error .indexError) ∧
    (¬ ((zb : Int) ≤ (zb : Int) + readStart ∧
        (zb : Int) + readStart ≤ (zb : Int) + readEnd ∧
        (zb : Int) + readEnd ≤ (ze : Int)) →
      ZmwRead.make baxH5 holeNumber readStart readEnd = .error .indexError) := by
  unfold ZmwRead.make
  rw [h]
  dsimp only
  by_cases hc : ((zb : Int) ≤ (zb : Int) + readStart ∧
      (zb : Int) + readStart ≤ (zb : Int) + readEnd ∧
      (zb : Int) + readEnd ≤ (ze : Int))
  · rw [if_pos hc]
    refine ⟨⟨fun _ => hc, fun _ => ⟨_, rfl⟩⟩, ?_, ?_, fun hn => absurd hc hn⟩
    · intro rd hrd
      cases hrd
      refine ⟨rfl, rfl, hc.1, hc.2.1, hc.2.2, rfl, ?_⟩
      have h21 := hc.2.1
      show (0 : Int) ≤ readEnd - readStart
      omega
    · intro hlt
      exfalso
      have h21 := hc.2.1
      omega
  · rw [if_neg hc]
    refine ⟨⟨fun he => ?_, fun hch => absurd hch hc⟩, ?_, fun _ => rfl, fun _ => rfl⟩
    · obtain ⟨rd, hrd⟩ := he
      exact Except.noConfusion hrd
    · intro rd hrd
      exact Except.noConfusion hrd

/-- A concrete part whose hole 0 owns offsets `[10, 20)`. -/
def c1part : BaxH5Part := ⟨[], [], [(0, 10, 20)], [], []⟩

theorem zmwRead_bounds_check_witness :
    (∃ rd, ZmwRead.make c1part 0 2 5 = Except.ok rd) ∧
    ZmwRead.make c1part 0 5 2 = Except.error PyErr.indexError :=
  ⟨((zmwRead_bounds_check c1part 0 2 5 10 20 (by decide)).1).mpr (by decide),
   (zmwRead_bounds_check c1part 0 5 2 10 20 (by decide)).2.2.1 (by decide)⟩

/-!
## C2, C3, C6: channel-view region accessors
-/

/-- A part whose region index is empty: its channel 0 exists (row index 0)
but is absent from the region index. -/
def cexPart : BaxH5Part := ⟨[], [], [], [(0, 0)], []⟩

/-- The channel view for hole 0 of `cexPart`. -/
def cexZmw : Zmw := ⟨cexPart, 0, 0⟩

/-- C2 counterexample: the claim says `highQualityInterval()` never raises
and returns `(0, 0)` when zero HQ rows exist; but for a channel view whose
hole is absent from the region index (zero annotation rows at all), the row
lookup inside `hqRegion` raises `KeyError` (modelled as `none`), so nothing
is returned. -/
theorem hqRegion_raises_on_missing_channel :
    Zmw.make cexPart 0 = Except.ok cexZmw ∧ cexZmw.hqRegion = none ∧
      cexZmw.hqRegion ≠ some (0, 0) := by decide

/-- C2 (amended): for every channel view whose hole is present in the
region index (so `regionRows` succeeds), `hqRegion` never raises: it
returns the `(start, end)` of the unique HQ-tagged row when exactly one
exists, and `(0, 0)` when zero or more than one exist. -/
theorem hqRegion_spec (z : Zmw) (rows : List RegionRow) (h : z.regionRows = some rows) :
    z.hqRegion = some (hqFromRows rows) ∧
    (∀ r, rows.filter (fun x => x.regionType == HQ_REGION) = [r] →
      hqFromRows rows = (r.regionStart, r.regionEnd)) ∧
    ((rows.filter (fun x => x.regionType == HQ_REGION)).length ≠ 1 →
      hqFromRows rows = (0, 0)) := by
  refine ⟨by unfold Zmw.hqRegion; rw [h]; rfl, ?_, ?_⟩
  · intro r hr
    unfold hqFromRows
    rw [hr]
  · intro hne
    unfold hqFromRows
    rcases hf : rows.filter (fun x => x.regionType == HQ_REGION) with _ | ⟨r1, _ | ⟨r2, rest⟩⟩
    · rw [hf]
    · rw [hf] at hne
      simp at hne
    · rw [hf]

/-- A part with a single HQ row `(10, 50)` for hole 0. -/
def w2part : BaxH5Part :=
  ⟨[⟨0, 2, 10, 50, 0⟩], [(0, 0, 1)], [], [(0, 0)], []⟩

/-- The channel view for hole 0 of `w2part`. -/
def w2zmw : Zmw := ⟨w2part, 0, 0⟩

theorem hqRegion_spec_witness :
    w2zmw.hqRegion = some (hqFromRows [⟨0, 2, 10, 50, 0⟩]) ∧
    hqFromRows [⟨0, 2, 10, 50, 0⟩] = (10, 50) :=
  ⟨(hqRegion_spec w2zmw [⟨0, 2, 10, 50, 0⟩] (by decide)).1,
   (hqRegion_spec w2zmw [⟨0, 2, 10, 50, 0⟩] (by decide)).2.1 ⟨0, 2, 10, 50, 0⟩ (by decide)⟩

/-- C3 counterexample: the claim says `adapterIntervals()` / 
`insertIntervals()` return the clipped row intersections for every channel
view; but for a channel view whose hole is absent from the region index,
both raise `KeyError` (modelled as `none`) instead of returning the empty
list of intersections. -/
theorem clippedIntervals_raise_on_missing_channel :
    Zmw.make cexPart 0 = Except.ok cexZmw ∧
    cexZmw.adapterRegions = none ∧ cexZmw.insertRegions = none := by decide

/-- C3 (amended): for every channel view whose hole is present in the
region index, `adapterRegions` / `insertRegions` return, in table row
order, the intersection of each row of the respective type with the HQ
interval, dropping empty intersections; every returned interval is
non-empty and contained in the HQ interval. -/
theorem clippedIntervals_spec (z : Zmw) (rows : List RegionRow)
    (h : z.regionRows = some rows) :
    z.adapterRegions =
      some ((rows.filter (fun r => r.regionType == ADAPTER_REGION)).filterMap
        (fun r => intersectRanges (hqFromRows rows) (r.regionStart, r.regionEnd))) ∧
    z.insertRegions =
      some ((rows.filter (fun r => r.regionType == INSERT_REGION)).filterMap
        (fun r => intersectRanges (hqFromRows rows) (r.regionStart, r.regionEnd))) ∧
    (∀ p ∈ adapterIntervalsOf rows,
      (hqFromRows rows).1 ≤ p.1 ∧ p.1 < p.2 ∧ p.2 ≤ (hqFromRows rows).2) ∧
    (∀ p ∈ insertIntervalsOf rows,
      (hqFromRows rows).1 ≤ p.1 ∧ p.1 < p.2 ∧ p.2 ≤ (hqFromRows rows).2) := by
  refine ⟨?_, ?_, ?_, ?_⟩
  · unfold Zmw.adapterRegions
    rw [h, Option.map_some', adapterIntervalsOf_eq]
  · unfold Zmw.insertRegions
    rw [h, Option.map_some', insertIntervalsOf_eq]
  · intro p hp
    rw [adapterIntervalsOf_eq] at hp
    obtain ⟨r, _, hr⟩ := List.mem_filterMap.mp hp
    exact intersectRanges_sound _ _ _ hr
  · intro p hp
    rw [insertIntervalsOf_eq] at hp
    obtain ⟨r, _, hr⟩ := List.mem_filterMap.mp hp
    exact intersectRanges_sound _ _ _ hr

/-- The rows of the spec scenario: HQ `(50, 950)`, inserts `(40, 500)` and
`(500, 960)`, for hole 8. -/
def w3rows : List RegionRow :=
  [⟨8, 2, 50, 950, 0⟩, ⟨8, 1, 40, 500, 0⟩, ⟨8, 1, 500, 960, 0⟩]

/-- A part holding `w3rows` for hole 8. -/
def w3part : BaxH5Part := ⟨w3rows, [(8, 0, 3)], [], [(8, 0)], []⟩

/-- The channel view for hole 8 of `w3part`. -/
def w3zmw : Zmw := ⟨w3part, 8, 0⟩

theorem clippedIntervals_spec_witness :
    w3zmw.insertRegions =
      some ((w3rows.filter (fun r => r.regionType == INSERT_REGION)).filterMap
        (fun r => intersectRanges (hqFromRows w3rows) (r.regionStart, r.regionEnd))) ∧
    (w3rows.filter (fun r => r.regionType == INSERT_REGION)).filterMap
        (fun r => intersectRanges (hqFromRows w3rows) (r.regionStart, r.regionEnd)) =
      [(50, 500), (500, 950)] :=
  ⟨(clippedIntervals_spec w3zmw w3rows (by decide)).2.1, by decide⟩

/-- C6 counterexample: the claim says a channel absent from the region
index gets an empty `regionRows()`; in the code the dict indexing raises
`KeyError` (modelled as `none`), so the empty sequence is never returned. -/
theorem regionRows_not_empty_on_absent :
    Zmw.make cexPart 0 = Except.ok cexZmw ∧ cexZmw.regionRows ≠ some [] ∧
      cexZmw.regionRows = none := by decide

/-- C6 (amended): for every channel view whose hole is absent from the
region index, `regionRows()` fails with a key-not-found error (`none`)
rather than returning an empty sequence. -/
theorem regionRows_keyError_of_absent (z : Zmw)
    (h : pyDictGet z.baxH5.regionTableIndex z.holeNumber = none) :
    z.regionRows = none := by
  unfold Zmw.regionRows
  rw [h]

theorem regionRows_keyError_of_absent_witness : cexZmw.regionRows = none :=
  regionRows_keyError_of_absent cexZmw (by decide)

/-!
## C5: offset index builder
-/

/-- Sum of the first `i` event counts: the exclusive prefix sum at row `i`,
the inclusive one at row `i` being `prefSum counts (i + 1)`. -/
def prefSum (counts : List Nat) (i : Nat) : Nat := (counts.take i).sum

/-- The per-row offset pairs `(begin, end)` produced by a cumulative sum
started at `a`. -/
def offsetsList (a : Nat) : List Nat → List (Nat × Nat)
  | [] => []
  | c :: cs => (a, a + c) :: offsetsList (a + c) cs

theorem zip_cumsum_eq_offsetsList (counts : List Nat) (a : Nat) :
    (a :: (cumsumFrom a counts).dropLast).zip (cumsumFrom a counts) =
      offsetsList a counts := by
  induction counts generalizing a with
  | nil => rfl
  | cons c cs ih =>
    show (a :: ((a + c) :: cumsumFrom (a + c) cs).dropLast).zip
        ((a + c) :: cumsumFrom (a + c) cs) = (a, a + c) :: offsetsList (a + c) cs
    cases hcs : cumsumFrom (a + c) cs with
    | nil =>
      have hcs0 : cs = [] := by
        cases cs with
        | nil => rfl
        | cons d ds => simp [cumsumFrom] at hcs
      subst hcs0
      rfl
    | cons x xs =>
      rw [← hcs, List.dropLast_cons_of_ne_nil (by simp [hcs])]
      rw [List.zip_cons_cons, ih (a + c)]

theorem zip_offsetsList_get (counts : List Nat) (holes : List Int) (a i : Nat)
    (hlen : holes.length = counts.length) (hi : i < counts.length) :
    (holes.zip (offsetsList a counts)).get? i =
      some (holes.getD i 0, (a + prefSum counts i, a + prefSum counts (i + 1))) := by
  induction counts generalizing holes a i with
  | nil => exact absurd hi (by simp)
  | cons c cs ih =>
    cases holes with
    | nil => simp at hlen
    | cons h0 hs =>
      cases i with
      | zero =>
        show some (h0, (a, a + c)) = _
        simp [prefSum]
      | succ j =>
        have hj : j < cs.length := by
          simpa using hi
        have hlen2 : hs.length = cs.length := by
          simpa using hlen
        show (hs.zip (offsetsList (a + c) cs)).get? j = _
        rw [ih hs (a + c) j hlen2 hj]
        simp only [List.getD_cons_succ, prefSum, List.take_succ_cons, List.sum_cons,
          Nat.add_assoc]

theorem offsetsList_length (a : Nat) (counts : List Nat) :
    (offsetsList a counts).length = counts.length := by
  induction counts generalizing a with
  | nil => rfl
  | cons c cs ih => simp [offsetsList, ih]

/-- C5: for parallel per-row arrays `counts` and `holes` (one row per
channel, ids distinct), the offset index maps the id of row `i` to
`(begin i, end i)` with `end i` the inclusive and `begin i` the exclusive
prefix sum of the counts at row `i`; hence `begin i ≤ end i`, and the range
of row `i` ends exactly where the next row's range begins
(`end i = begin i + counts i = begin (i+1)`). -/
theorem offsets_index_spec (counts : List Nat) (holes : List Int)
    (hlen : holes.length = counts.length) (hnd : holes.Nodup)
    (i : Nat) (hi : i < counts.length) :
    pyDictGet (_makeOffsetsDataStructure counts holes) (holes.getD i 0) =
      some (prefSum counts i, prefSum counts (i + 1)) ∧
    prefSum counts i ≤ prefSum counts (i + 1) ∧
    prefSum counts (i + 1) = prefSum counts i + counts.getD i 0 := by
  have hmk : _makeOffsetsDataStructure counts holes = holes.zip (offsetsList 0 counts) := by
    unfold _makeOffsetsDataStructure cumsum
    dsimp only
    rw [zip_cumsum_eq_offsetsList]
  have hsum : prefSum counts (i + 1) = prefSum counts i + counts.getD i 0 := by
    unfold prefSum
    rw [List.sum_take_succ counts i hi, List.getD_eq_getElem counts 0 hi]
  refine ⟨?_, by omega, hsum⟩
  rw [hmk]
  have hget := zip_offsetsList_get counts holes 0 i hlen hi
  simp only [Nat.zero_add] at hget
  apply pyDictGet_eq_some_of_nodup
  · rw [List.map_fst_zip holes (offsetsList 0 counts)
      (by rw [offsetsList_length, hlen])]
    exact hnd
  · exact List.get?_mem hget

theorem offsets_index_spec_witness :
    pyDictGet (_makeOffsetsDataStructure [3, 4] [10, 20]) (([10, 20] : List Int).getD 1 0) =
      some (prefSum [3, 4] 1, prefSum [3, 4] 2) ∧
    prefSum [3, 4] 1 ≤ prefSum [3, 4] 2 ∧
    prefSum [3, 4] 2 = prefSum [3, 4] 1 + ([3, 4] : List Nat).getD 1 0 :=
  offsets_index_spec [3, 4] [10, 20] (by decide) (by decide) 1 (by decide)

/-!
## C4: region index builder
-/

/-- An annotation-table hole-number column described as contiguous blocks:
each pair `(v, c)` contributes `c` consecutive rows carrying id `v`. -/
def flattenBlocks : List (Int × Nat) → List Int
  | [] => []
  | b :: bs => List.replicate b.2 b.1 ++ flattenBlocks bs

/-- The cumulative end-row positions of the blocks, starting at `acc`. -/
def cumEnds (acc : Nat) : List (Int × Nat) → List Nat
  | [] => []
  | b :: bs => (acc + b.2) :: cumEnds (acc + b.2) bs

/-- The intended region index: block id to its `(startRow, endRow)` range. -/
def blockRanges (acc : Nat) : List (Int × Nat) → List (Int × Nat × Nat)
  | [] => []
  | b :: bs => (b.1, (acc, acc + b.2)) :: blockRanges (acc + b.2) bs

theorem lookup_mem {α β : Type} [BEq α] [LawfulBEq α]
    {l : List (α × β)} {k : α} {v : β} (h : List.lookup k l = some v) :
    (k, v) ∈ l := by
  induction l with
  | nil => simp [List.lookup] at h
  | cons hd tl ih =>
    obtain ⟨a, b⟩ := hd
    rw [List.lookup_cons] at h
    by_cases hk : k = a
    · subst hk
      simp only [beq_self_eq_true] at h
      cases h
      exact List.mem_cons_self _ _
    · have hb : (k == a) = false := beq_eq_false_iff_ne.mpr hk
      rw [hb] at h
      exact List.mem_cons_of_mem _ (ih h)

theorem mem_flattenBlocks {x : Int} {bs : List (Int × Nat)}
    (h : x ∈ flattenBlocks bs) : x ∈ bs.map Prod.fst := by
  induction bs with
  | nil => simp [flattenBlocks] at h
  | cons b t ih =>
    rcases List.mem_append.mp h with h1 | h1
    · rw [List.eq_of_mem_replicate h1]
      exact List.mem_cons_self _ _
    · exact List.mem_cons_of_mem _ (ih h1)

theorem adjacentDiffs_replicate_append (c : Nat) (v : Int) (rest : List Int) :
    adjacentDiffs (List.replicate (c + 1) v ++ rest) =
      List.replicate c 0 ++ adjacentDiffs (v :: rest) := by
  induction c with
  | zero => rfl
  | succ n ih =>
    show (v - v) :: adjacentDiffs (List.replicate (n + 1) v ++ rest) =
      List.replicate (n + 1) 0 ++ adjacentDiffs (v :: rest)
    rw [ih, sub_self]
    rfl

theorem flatnonzeroFrom_append (k : Nat) (xs ys : List Int) :
    flatnonzeroFrom k (xs ++ ys) =
      flatnonzeroFrom k xs ++ flatnonzeroFrom (k + xs.length) ys := by
  induction xs generalizing k with
  | nil => simp [flatnonzeroFrom]
  | cons x t ih =>
    have harith : k + (t.length + 1) = k + 1 + t.length := by omega
    by_cases hx : x = 0 <;>
      simp [flatnonzeroFrom, hx, ih, List.length_cons, harith]

theorem flatnonzeroFrom_replicate_zero (k c : Nat) :
    flatnonzeroFrom k (List.replicate c (0 : Int)) = [] := by
  induction c generalizing k with
  | zero => rfl
  | succ n ih => simp [List.replicate, flatnonzeroFrom, ih]

theorem flatnonzero_diffs_eq_cumEnds (blocks : List (Int × Nat)) :
    ∀ acc : Nat, (∀ p ∈ blocks, 0 < p.2) →
      (blocks.map Prod.fst).Pairwise (fun a b => a < b) →
      blocks ≠ [] →
      flatnonzeroFrom (acc + 1) (adjacentDiffs (flattenBlocks blocks) ++ [1]) =
        cumEnds acc blocks := by
  induction blocks with
  | nil => intro acc _ _ hne; exact absurd rfl hne
  | cons b bs ih =>
    intro acc hpos hsort _
    obtain ⟨v, c⟩ := b
    have hc : 0 < c := hpos (v, c) (List.mem_cons_self _ _)
    obtain ⟨c0, rfl⟩ : ∃ c0, c = c0 + 1 := ⟨c - 1, by omega⟩
    cases bs with
    | nil =>
      show flatnonzeroFrom (acc + 1)
          (adjacentDiffs (List.replicate (c0 + 1) v ++ []) ++ [1]) = [acc + (c0 + 1)]
      rw [adjacentDiffs_replicate_append]
      show flatnonzeroFrom (acc + 1) ((List.replicate c0 0 ++ []) ++ [1]) = _
      rw [List.append_nil, flatnonzeroFrom_append, flatnonzeroFrom_replicate_zero,
        List.length_replicate]
      simp [flatnonzeroFrom]
      omega
    | cons b2 bs2 =>
      obtain ⟨w, d⟩ := b2
      have hd : 0 < d := hpos (w, d) (List.mem_cons_of_mem _ (List.mem_cons_self _ _))
      obtain ⟨d0, rfl⟩ : ∃ d0, d = d0 + 1 := ⟨d - 1, by omega⟩
      have hvw : v < w := by
        simp only [List.map_cons, List.pairwise_cons] at hsort
        exact hsort.1 w (List.mem_cons_self _ _)
      have e1 : flattenBlocks ((v, c0 + 1) :: (w, d0 + 1) :: bs2) =
          List.replicate (c0 + 1) v ++
            (w :: (List.replicate d0 w ++ flattenBlocks bs2)) := rfl
      rw [e1, adjacentDiffs_replicate_append]
      have e2 : adjacentDiffs (v :: w :: (List.replicate d0 w ++ flattenBlocks bs2)) =
          (w - v) :: adjacentDiffs (flattenBlocks ((w, d0 + 1) :: bs2)) := rfl
      rw [e2, List.append_assoc, flatnonzeroFrom_append, flatnonzeroFrom_replicate_zero,
        List.length_replicate]
      have hwv : w - v ≠ 0 := by omega
      show flatnonzeroFrom (acc + 1 + c0)
          ((w - v) :: (adjacentDiffs (flattenBlocks ((w, d0 + 1) :: bs2)) ++ [1])) = _
      simp only [flatnonzeroFrom, hwv, if_neg, ite_false]
      have e3 : acc + 1 + c0 = acc + (c0 + 1) := by omega
      rw [e3]
      show _ = (acc + (c0 + 1)) :: cumEnds (acc + (c0 + 1)) ((w, d0 + 1) :: bs2)
      congr 1
      apply ih (acc + (c0 + 1))
      · intro p hp
        exact hpos p (List.mem_cons_of_mem _ hp)
      · simp only [List.map_cons, List.pairwise_cons] at hsort
        exact List.pairwise_cons.mpr ⟨hsort.2.1, hsort.2.2⟩
      · simp

theorem sorted_flattenBlocks (blocks : List (Int × Nat))
    (hsort : (blocks.map Prod.fst).Pairwise (fun a b => a < b)) :
    List.Sorted (fun a b : Int => a ≤ b) (flattenBlocks blocks) := by
  induction blocks with
  | nil => simp [flattenBlocks, List.Sorted]
  | cons b bs ih =>
    obtain ⟨v, c⟩ := b
    simp only [List.map_cons, List.pairwise_cons] at hsort
    refine List.pairwise_append.mpr ⟨?_, ih hsort.2, ?_⟩
    · exact List.pairwise_replicate.mpr (Or.inr (le_refl v))
    · intro x hx y hy
      rw [List.eq_of_mem_replicate hx]
      exact le_of_lt (hsort.1 y (mem_flattenBlocks hy))

theorem dedup_replicate_append (c : Nat) (v : Int) (rest : List Int) :
    (List.replicate (c + 1) v ++ rest).dedup = (v :: rest).dedup := by
  induction c with
  | zero => rfl
  | succ n ih =>
    have hmem : v ∈ List.replicate (n + 1) v ++ rest :=
      List.mem_append_left _ (List.mem_replicate.mpr ⟨by omega, rfl⟩)
    show (v :: (List.replicate (n + 1) v ++ rest)).dedup = _
    rw [List.dedup_cons_of_mem hmem, ih]

theorem dedup_flattenBlocks (blocks : List (Int × Nat))
    (hpos : ∀ p ∈ blocks, 0 < p.2)
    (hsort : (blocks.map Prod.fst).Pairwise (fun a b => a < b)) :
    (flattenBlocks blocks).dedup = blocks.map Prod.fst := by
  induction blocks with
  | nil => rfl
  | cons b bs ih =>
    obtain ⟨v, c⟩ := b
    have hc : 0 < c := hpos (v, c) (List.mem_cons_self _ _)
    simp only [List.map_cons, List.pairwise_cons] at hsort
    have hnotin : v ∉ flattenBlocks bs := by
      intro hmem
      exact absurd (hsort.1 v (mem_flattenBlocks hmem)) (lt_irrefl v)
    obtain ⟨c0, rfl⟩ : ∃ c0, c = c0 + 1 := ⟨c - 1, by omega⟩
    show (List.replicate (c0 + 1) v ++ flattenBlocks bs).dedup = _
    rw [dedup_replicate_append, List.dedup_cons_of_not_mem hnotin,
      ih (fun p hp => hpos p (List.mem_cons_of_mem _ hp)) hsort.2]
    rfl

theorem changepoints_flattenBlocks (blocks : List (Int × Nat))
    (hpos : ∀ p ∈ blocks, 0 < p.2)
    (hsort : (blocks.map Prod.fst).Pairwise (fun a b => a < b))
    (hne : blocks ≠ []) :
    flatnonzeroFrom 0 (mkDiffs (flattenBlocks blocks)) = 0 :: cumEnds 0 blocks := by
  unfold mkDiffs
  have h1 : flatnonzeroFrom 0 (1 :: (adjacentDiffs (flattenBlocks blocks) ++ [1])) =
      0 :: flatnonzeroFrom 1 (adjacentDiffs (flattenBlocks blocks) ++ [1]) := by
    simp [flatnonzeroFrom]
  rw [h1]
  have h2 := flatnonzero_diffs_eq_cumEnds blocks 0 hpos hsort hne
  simpa using h2

theorem zip_ids_cumEnds (blocks : List (Int × Nat)) (acc : Nat) :
    (blocks.map Prod.fst).zip ((acc :: cumEnds acc blocks).zip (cumEnds acc blocks)) =
      blockRanges acc blocks := by
  induction blocks generalizing acc with
  | nil => rfl
  | cons b bs ih =>
    obtain ⟨v, c⟩ := b
    show (v :: bs.map Prod.fst).zip
        ((acc :: (acc + c) :: cumEnds (acc + c) bs).zip
          ((acc + c) :: cumEnds (acc + c) bs)) =
      (v, (acc, acc + c)) :: blockRanges (acc + c) bs
    simp only [List.zip_cons_cons]
    rw [ih (acc + c)]

theorem regionTableIndex_flattenBlocks (blocks : List (Int × Nat))
    (hpos : ∀ p ∈ blocks, 0 < p.2)
    (hsort : (blocks.map Prod.fst).Pairwise (fun a b => a < b)) :
    _makeRegionTableIndex (flattenBlocks blocks) = blockRanges 0 blocks := by
  cases blocks with
  | nil => rfl
  | cons b bs =>
    unfold _makeRegionTableIndex
    dsimp only
    rw [changepoints_flattenBlocks _ hpos hsort (by simp)]
    unfold npUnique
    rw [List.Sorted.insertionSort_eq (sorted_flattenBlocks _ hsort),
      dedup_flattenBlocks _ hpos hsort]
    exact zip_ids_cumEnds _ 0

theorem blockRanges_keys (acc : Nat) (blocks : List (Int × Nat)) :
    (blockRanges acc blocks).map Prod.fst = blocks.map Prod.fst := by
  induction blocks generalizing acc with
  | nil => rfl
  | cons b bs ih => simp [blockRanges, ih]

theorem blockRanges_slice (blocks : List (Int × Nat)) :
    ∀ (acc : Nat) (v : Int) (s e : Nat), (∀ p ∈ blocks, 0 < p.2) →
      (v, (s, e)) ∈ blockRanges acc blocks →
      acc ≤ s ∧ s < e ∧
        ((flattenBlocks blocks).drop (s - acc)).take (e - s) =
          List.replicate (e - s) v := by
  induction blocks with
  | nil => intro acc v s e _ hmem; simp [blockRanges] at hmem
  | cons b bs ih =>
    intro acc v s e hpos hmem
    obtain ⟨w, c⟩ := b
    have hc : 0 < c := hpos (w, c) (List.mem_cons_self _ _)
    rcases List.mem_cons.mp hmem with h1 | h1
    · cases h1
      refine ⟨le_refl _, by omega, ?_⟩
      have hz : acc - acc = 0 := by omega
      have he : acc + c - acc = c := by omega
      rw [hz, he, List.drop_zero]
      show (List.replicate c w ++ flattenBlocks bs).take c = List.replicate c w
      have htl := List.take_left (List.replicate c w) (flattenBlocks bs)
      rw [List.length_replicate] at htl
      exact htl
    · obtain ⟨ha, hse, hslice⟩ :=
        ih (acc + c) v s e (fun p hp => hpos p (List.mem_cons_of_mem _ hp)) h1
      refine ⟨by omega, hse, ?_⟩
      show ((List.replicate c w ++ flattenBlocks bs).drop (s - acc)).take (e - s) = _
      have hs2 : s - acc = (List.replicate c w).length + (s - (acc + c)) := by
        rw [List.length_replicate]
        omega
      rw [hs2, List.drop_append]
      exact hslice

/-- C4 counterexample: for the table column `[1, 1, 0]` (rows sharing an id
are contiguous, ids not ascending) the builder maps id `0` to the row range
`(0, 2)`, but rows 0 and 1 carry id `1`, not `0` — `np.unique` sorts the
ids while the changepoint ranges stay in row order. -/
theorem regionTableIndex_misroutes_unsorted_ids :
    pyDictGet (_makeRegionTableIndex [1, 1, 0]) 0 = some (0, 2) ∧
    (([1, 1, 0] : List Int).drop 0).take 2 = [1, 1] ∧
    (([1, 1, 0] : List Int).drop 0).take 2 ≠ List.replicate 2 (0 : Int) := by decide

/-- C4 (amended): for every annotation table whose rows sharing a channel
id are contiguous *and whose distinct ids appear in ascending order*
(described as blocks of positive length with strictly increasing ids), the
builder pairs consecutive changepoints into `(startRow, endRow)` ranges and
maps each channel id to the range whose rows carry that id: the index
equals the block layout, every id occurring in the table has an entry, and
every entry's row range is non-empty and is filled with exactly that id. -/
theorem regionTableIndex_correct_of_ascending (blocks : List (Int × Nat))
    (hpos : ∀ p ∈ blocks, 0 < p.2)
    (hsort : (blocks.map Prod.fst).Pairwise (fun a b => a < b)) :
    _makeRegionTableIndex (flattenBlocks blocks) = blockRanges 0 blocks ∧
    (∀ v ∈ flattenBlocks blocks,
      ∃ se, pyDictGet (_makeRegionTableIndex (flattenBlocks blocks)) v = some se) ∧
    (∀ v s e, pyDictGet (_makeRegionTableIndex (flattenBlocks blocks)) v = some (s, e) →
      s < e ∧
        ((flattenBlocks blocks).drop s).take (e - s) = List.replicate (e - s) v) := by
  have hidx := regionTableIndex_flattenBlocks blocks hpos hsort
  have hkeys : ((blockRanges 0 blocks).map Prod.fst).Nodup := by
    rw [blockRanges_keys]
    exact List.Pairwise.imp (fun hlt => ne_of_lt hlt) hsort
  refine ⟨hidx, ?_, ?_⟩
  · intro v hv
    have hv2 : v ∈ (blockRanges 0 blocks).map Prod.fst := by
      rw [blockRanges_keys]
      exact mem_flattenBlocks hv
    obtain ⟨p, hp, hpfst⟩ := List.mem_map.mp hv2
    refine ⟨p.2, ?_⟩
    rw [hidx]
    apply pyDictGet_eq_some_of_nodup _ _ _ hkeys
    have : p = (v, p.2) := by
      rw [← hpfst]
    rw [← this]
    exact hp
  · intro v s e hget
    rw [hidx] at hget
    unfold pyDictGet at hget
    have hmem : (v, (s, e)) ∈ blockRanges 0 blocks :=
      List.mem_reverse.mp (lookup_mem hget)
    obtain ⟨_, hse, hslice⟩ := blockRanges_slice blocks 0 v s e hpos hmem
    rw [Nat.sub_zero] at hslice
    exact ⟨hse, hslice⟩

theorem regionTableIndex_correct_of_ascending_witness :
    _makeRegionTableIndex (flattenBlocks [(3, 2), (5, 1)]) =
      blockRanges 0 [(3, 2), (5, 1)] ∧
    _makeRegionTableIndex (flattenBlocks [(3, 2), (5, 1)]) = [(3, 0, 2), (5, 2, 3)] :=
  ⟨(regionTableIndex_correct_of_ascending [(3, 2), (5, 1)] (by decide) (by decide)).1,
   by decide⟩

/-!
## C7: partition routing
-/

/-- C7: whenever the routing vector resolves a hole to part `k` and the
part list yields a part at position `k - 1`, `_getitemScalar` returns
exactly what that part's own `__getitem__` returns; and for a single-part
reader (`multiPart = false`, one part) every hole number is delegated to
the only part, whatever the lookup vector holds. -/
theorem getitemScalar_routes (r : BasH5) :
    (∀ holeNumber k part, r.holeLookup holeNumber = some k →
      pyIndex r.parts (k - 1) = some part →
      r.getitemScalar holeNumber = BaxH5Part.getitem part holeNumber) ∧
    (∀ part, r.multiPart = false → r.parts = [part] →
      ∀ holeNumber, r.getitemScalar holeNumber = BaxH5Part.getitem part holeNumber) := by
  constructor
  · intro hn k part h1 h2
    unfold BasH5.getitemScalar
    rw [h1]
    dsimp only
    rw [h2]
    rfl
  · intro part hmp hparts hn
    unfold BasH5.getitemScalar BasH5.holeLookup
    rw [hmp, hparts]
    rfl

/-- A part owning hole 1 only. -/
def c7partA : BaxH5Part := ⟨[], [], [], [(1, 0)], [1]⟩

/-- A part owning hole 0 only. -/
def c7partB : BaxH5Part := ⟨[], [], [], [(0, 0)], [0]⟩

/-- A multi-part reader whose routing vector sends hole 0 to part 2 and
hole 1 to part 1. -/
def c7readerM : BasH5 := ⟨true, [c7partA, c7partB], [2, 1]⟩

/-- A single-part reader carrying junk in the (never consulted) vector. -/
def c7readerS : BasH5 := ⟨false, [c7partB], [9, 9, 9]⟩

theorem getitemScalar_routes_witness :
    BasH5.getitemScalar c7readerM 0 = BaxH5Part.getitem c7partB 0 ∧
    BasH5.getitemScalar c7readerS 0 = BaxH5Part.getitem c7partB 0 :=
  ⟨(getitemScalar_routes c7readerM).1 0 2 c7partB (by decide) (by decide),
   (getitemScalar_routes c7readerS).2 c7partB rfl rfl 0⟩

/-!
## C8 and C10: bulk lookup
-/

/-- The positions at which a boolean selector holds `True`, in order. -/
def trueIndices (bs : List Bool) : List Nat :=
  (bs.enum.filter (fun p => p.2)).map Prod.fst

theorem flatnonzeroFrom_boolMap (bs : List Bool) :
    ∀ k, flatnonzeroFrom k (bs.map (fun b => if b then 1 else 0)) =
      ((List.enumFrom k bs).filter (fun p => p.2)).map Prod.fst := by
  induction bs with
  | nil => intro k; rfl
  | cons b t ih =>
    intro k
    cases b <;>
      simp [List.map_cons, flatnonzeroFrom, List.enumFrom, List.filter_cons, ih (k + 1)]

theorem flatnonzeroBools_eq_trueIndices (bs : List Bool) :
    flatnonzeroBools bs = trueIndices bs := by
  unfold flatnonzeroBools trueIndices List.enum
  exact flatnonzeroFrom_boolMap bs 0

/-- C8 (amended): a boolean selector returns the channel views for the
hole numbers *equal to the positions of its true entries* (the mask indexes
the hole-number space `0..len-1`, not the usable-channel list), in order;
and an argument of any other kind raises `TypeError`. -/
theorem getitem_bool_mask_and_typeError (r : BasH5) :
    (∀ bs : List Bool,
      r.getitem (.ofBools bs) =
        ((trueIndices bs).mapM (fun i => r.getitemScalar (Int.ofNat i))).map
          PyGetResult.many) ∧
    r.getitem .other = .error .typeError := by
  constructor
  · intro bs
    unfold BasH5.getitem
    dsimp only
    by_cases hbs : bs.isEmpty
    · rw [List.isEmpty_iff.mp hbs]
      rfl
    · rw [if_neg hbs, flatnonzeroBools_eq_trueIndices]
  · rfl

/-- A part whose hole-number dict contains holes 0 and 7, but whose only
usable hole is 7. -/
def c8part : BaxH5Part := ⟨[], [], [], [(0, 0), (7, 1)], [7]⟩

/-- A single-part reader around `c8part`. -/
def c8reader : BasH5 := ⟨false, [c8part], []⟩

/-- C8 counterexample: the usable-channel list of `c8reader` is `[7]`, so
per the claim the selector `[True]` should return the view of hole 7; the
code instead feeds `np.flatnonzero([True]) = [0]` to `_getitemScalar` and
returns the view of hole 0. -/
theorem getitem_bool_ignores_usable_list :
    BasH5.getitem c8reader (.ofBools [true]) =
      .ok (.many [⟨c8part, 0, 0⟩]) ∧
    BasH5.sequencingZmws c8reader = [7] ∧
    (⟨c8part, 0, 0⟩ : Zmw).holeNumber ≠ 7 := by decide

/-- C10: bulk lookup with an empty list or empty array returns the empty
list without raising, for an integer-typed and a boolean-typed collection
alike. -/
theorem getitem_empty_list (r : BasH5) :
    r.getitem (.ofInts []) = .ok (.many []) ∧
    r.getitem (.ofBools []) = .ok (.many []) := by
  exact ⟨rfl, rfl⟩

/-!
## C9: metric cache
-/

/-- C9: starting from an empty cache, the first `zmwMetric` call reads the
backing store at most once; a second call for the same name (any row index)
reads it zero times and returns exactly the direct un-cached lookup, which
indexes a 2-D metric along the first axis (returning the remaining row) and
a 1-D metric at the row index (returning the scalar). -/
theorem zmwMetric_cache_spec {α : Type} (store : List (String × NpArr α))
    (name : String) (i j : Nat) :
    (zmwMetric store [] name i).2.2 ≤ 1 ∧
    (zmwMetric store [] name i).1 = zmwMetricDirect store name i ∧
    (zmwMetric store (zmwMetric store [] name i).2.1 name j).2.2 = 0 ∧
    (zmwMetric store (zmwMetric store [] name i).2.1 name j).1 =
      zmwMetricDirect store name j ∧
    (∀ xss row, pyDictGet store name = some (NpArr.twoD xss) → xss.get? j = some row →
      (zmwMetric store (zmwMetric store [] name i).2.1 name j).1 =
        .ok (.row row)) ∧
    (∀ xs x, pyDictGet store name = some (NpArr.oneD xs) → xs.get? j = some x →
      (zmwMetric store (zmwMetric store [] name i).2.1 name j).1 =
        .ok (.scalar x)) := by
  have hempty : pyDictGet ([] : List (String × NpArr α)) name = none := rfl
  cases hstore : pyDictGet store name with
  | none =>
    have h1 : zmwMetric store [] name i = (.error .keyError, [], 0) := by
      unfold zmwMetric
      rw [hempty, hstore]
    have hdir : ∀ m, zmwMetricDirect store name m = .error .keyError := by
      intro m
      unfold zmwMetricDirect
      rw [hstore]
    have h2 : ∀ m, zmwMetric store [] name m = (.error .keyError, [], 0) := by
      intro m
      unfold zmwMetric
      rw [hempty, hstore]
    rw [h1]
    dsimp only
    refine ⟨by omega, (hdir i).symm, ?_, ?_, ?_, ?_⟩
    · rw [h2]
    · rw [h2, hdir]
    · intro xss row hx _
      exact Option.noConfusion hx
    · intro xs x hx _
      exact Option.noConfusion hx
  | some v =>
    have h1 : zmwMetric store [] name i = (metricIndex v i, [(name, v)], 1) := by
      unfold zmwMetric
      rw [hempty, hstore]
      rfl
    have hc : pyDictGet [(name, v)] name = some v := by
      simp [pyDictGet, List.lookup]
    have h2 : ∀ m, zmwMetric store [(name, v)] name m = (metricIndex v m, [(name, v)], 0) := by
      intro m
      unfold zmwMetric
      rw [hc]
    have hdir : ∀ m, zmwMetricDirect store name m = metricIndex v m := by
      intro m
      unfold zmwMetricDirect
      rw [hstore]
    rw [h1]
    dsimp only
    refine ⟨by omega, (hdir i).symm, ?_, ?_, ?_, ?_⟩
    · rw [h2]
    · rw [h2, hdir]
    · intro xss row hx hrow
      have hv := Option.some.inj hx
      subst hv
      rw [h2]
      show (match xss.get? j with
        | some rr => Except.ok (MetricVal.row rr)
        | none => Except.error PyErr.indexError) = Except.ok (MetricVal.row row)
      rw [hrow]
    · intro xs x hx hrow
      have hv := Option.some.inj hx
      subst hv
      rw [h2]
      show (match xs.get? j with
        | some xx => Except.ok (MetricVal.scalar xx)
        | none => Except.error PyErr.indexError) = Except.ok (MetricVal.scalar x)
      rw [hrow]

/-- A backing store with a 1-D `ReadScore` metric. -/
def c9store : List (String × NpArr Int) := [("ReadScore", .oneD [5, 7])]

theorem zmwMetric_cache_spec_witness :
    (zmwMetric c9store (zmwMetric c9store [] "ReadScore" 0).2.1 "ReadScore" 1).1 =
      .ok (.scalar 7) :=
  (zmwMetric_cache_spec c9store "ReadScore" 0 1).2.2.2.2.2 [5, 7] 7 (by decide) (by decide)
